import Mathlib

/-!
Verification of the request-governance stack of the react-framer-builder
repository against its natural-language specification.

Each namespace below shallowly embeds one source component:

* `TokenBucket`   — `src/services/tokenBucketRateLimiter.ts` (`TokenBucketRateLimiter`)
* `Scheduler`     — the priority queue of `EnhancedRateLimiter.scheduleRequest`
* `AdvLimiter`    — `src/services/advancedRateLimiter.ts` (`AdvancedRateLimiter`,
                    including its embedded circuit breaker)
* `Cache`         — `CacheManager` (cache map, capacity eviction)
* `Dedup`         — `RequestDeduplicator`
* `Monitor`       — `APIMonitor.recordRequest`
* `Client`        — `SportradarAPI` constructor validation and the response
                    interceptor's error classification

JavaScript numbers are modelled as `ℚ` where fractional values can occur
(bucket tokens, refill rates, latencies) and as `ℕ` for millisecond
timestamps.  Map iteration order of a JS `Map` is insertion order; maps are
modelled as association lists with distinct keys where that order matters.
-/

namespace TokenBucket

/-- State of `TokenBucketRateLimiter`: the fields `capacity`, `refillRate`
(tokens per second), `tokens` and `lastRefill` (ms timestamp).  The
`refillInterval` config only drives the polling timer and is irrelevant to the
token arithmetic. -/
structure TBState where
  capacity : ℚ
  refillRate : ℚ
  tokens : ℚ
  lastRefill : ℕ
  deriving Repr, DecidableEq

/-- `refillTokens()`: `tokensToAdd = Math.floor((timePassed / 1000) * refillRate)`;
only when `tokensToAdd > 0` are tokens bumped (capped at capacity) and
`lastRefill` advanced. -/
def refillTokens (s : TBState) (now : ℕ) : TBState :=
  let timePassed : ℕ := now - s.lastRefill
  let tokensToAdd : ℤ := ⌊((timePassed : ℚ) / 1000) * s.refillRate⌋
  if 0 < tokensToAdd then
    { s with tokens := min s.capacity (s.tokens + (tokensToAdd : ℚ)), lastRefill := now }
  else s

/-- `canConsume(tokens)`: refill, then report whether `this.tokens >= tokens`.
The updated state is returned alongside, since `refillTokens` mutates. -/
def canConsume (s : TBState) (now : ℕ) (n : ℚ) : Bool × TBState :=
  let s' := refillTokens s now
  (decide (n ≤ s'.tokens), s')

/-- `consume(tokens)`: if `canConsume` then subtract and return `true`, else
return `false` with the (refilled) state otherwise untouched. -/
def consume (s : TBState) (now : ℕ) (n : ℚ) : Bool × TBState :=
  let c := canConsume s now n
  if c.1 then (true, { c.2 with tokens := c.2.tokens - n }) else (false, c.2)

/-- `getTimeUntilNextToken()`: `0` when `tokens > 0`, else
`Math.ceil(1 * (1000 / refillRate))` milliseconds. -/
def getTimeUntilNextToken (s : TBState) : ℕ :=
  if 0 < s.tokens then 0 else (⌈(1000 : ℚ) / s.refillRate⌉).toNat

/-- Modelled from the spec (for claim C1 only, to compare against the code):
"refills based on elapsed time since last refill (tokens += elapsed_seconds ×
refillRate, capped at capacity)" with "fractional tokens tracked internally".
This is the token count a continuous (non-quantized) refill would produce. -/
def specContinuousRefill (s : TBState) (now : ℕ) : ℚ :=
  min s.capacity (s.tokens + ((now - s.lastRefill : ℕ) : ℚ) / 1000 * s.refillRate)

end TokenBucket

namespace TokenBucket

/-- C1 counterexample: a bucket with capacity 10, refill rate 1 token/s,
0 tokens, last refilled at t = 0.  At t = 500ms the spec's continuous refill
yields 1/2 token, but the code's `Math.floor` refill adds nothing: the two
disagree, refuting "adds exactly e_seconds × refillRate tokens, tracking
fractional token amounts continuously". -/
theorem refill_quantized_cex :
    (refillTokens ⟨10, 1, 0, 0⟩ 500).tokens = 0 ∧
    specContinuousRefill ⟨10, 1, 0, 0⟩ 500 = 1 / 2 ∧
    (refillTokens ⟨10, 1, 0, 0⟩ 500).tokens ≠ specContinuousRefill ⟨10, 1, 0, 0⟩ 500 := by
  have hfl : (⌊(((500 - 0 : ℕ) : ℚ) / 1000) * (1 : ℚ)⌋ : ℤ) = 0 := by
    norm_num [Int.floor_eq_iff]
  have h1 : (refillTokens ⟨10, 1, 0, 0⟩ 500).tokens = 0 := by
    simp only [refillTokens, hfl]
    norm_num
  have h2 : specContinuousRefill ⟨10, 1, 0, 0⟩ 500 = 1 / 2 := by
    simp only [specContinuousRefill]
    norm_num
  refine ⟨h1, h2, ?_⟩
  rw [h1, h2]; norm_num

/-- C1 (amended): the refill step adds exactly `⌊e_seconds × refillRate⌋`
whole tokens (capped at capacity) — fractional amounts are not tracked — and
advances `lastRefill` only when that floor is positive; then `consume n`
subtracts `n` and returns `true` iff the refilled token count is ≥ n, and
returns `false` without subtracting otherwise. -/
theorem consume_floor_refill_then_subtract (s : TBState) (now : ℕ) (n : ℚ) :
    (refillTokens s now).tokens =
      (if 0 < ⌊(((now - s.lastRefill : ℕ) : ℚ) / 1000) * s.refillRate⌋ then
        min s.capacity
          (s.tokens + ((⌊(((now - s.lastRefill : ℕ) : ℚ) / 1000) * s.refillRate⌋ : ℤ) : ℚ))
      else s.tokens) ∧
    (refillTokens s now).lastRefill =
      (if 0 < ⌊(((now - s.lastRefill : ℕ) : ℚ) / 1000) * s.refillRate⌋ then now
       else s.lastRefill) ∧
    ((consume s now n).1 = true ↔ n ≤ (refillTokens s now).tokens) ∧
    (n ≤ (refillTokens s now).tokens →
      (consume s now n).2.tokens = (refillTokens s now).tokens - n) ∧
    (¬ n ≤ (refillTokens s now).tokens → (consume s now n).2 = refillTokens s now) := by
  refine ⟨?_, ?_, ?_, ?_, ?_⟩
  · simp only [refillTokens]
    split <;> rfl
  · simp only [refillTokens]
    split <;> rfl
  · simp only [consume, canConsume]
    split <;> simp_all
  · intro h
    simp only [consume, canConsume]
    split <;> simp_all
  · intro h
    have hd : decide (n ≤ (refillTokens s now).tokens) = false := by simpa using h
    simp [consume, canConsume, hd]

/-- The Boolean a `consume` call returns is exactly "the refilled token count
is at least the requested amount". -/
theorem consume_fst (s : TBState) (now : ℕ) (n : ℚ) :
    (consume s now n).1 = decide (n ≤ (refillTokens s now).tokens) := by
  by_cases h : n ≤ (refillTokens s now).tokens <;> simp [consume, canConsume, h]

theorem refill_capacity (s : TBState) (now : ℕ) :
    (refillTokens s now).capacity = s.capacity := by
  simp only [refillTokens]; split <;> rfl

theorem refill_rate (s : TBState) (now : ℕ) :
    (refillTokens s now).refillRate = s.refillRate := by
  simp only [refillTokens]; split <;> rfl

/-- A refill call either leaves the state untouched (when the floored token
increment is zero) or leaves at least one token in a bucket of capacity ≥ 1. -/
theorem refill_id_or_one_le (s : TBState) (now : ℕ)
    (hcap : 1 ≤ s.capacity) (h0 : 0 ≤ s.tokens) :
    refillTokens s now = s ∨ 1 ≤ (refillTokens s now).tokens := by
  simp only [refillTokens]
  split
  · right
    rename_i hpos
    have h1 : (1 : ℚ) ≤ ((⌊(((now - s.lastRefill : ℕ) : ℚ) / 1000) * s.refillRate⌋ : ℤ) : ℚ) := by
      exact_mod_cast hpos
    exact le_min hcap (by linarith)
  · left; rfl

theorem refill_nonneg (s : TBState) (now : ℕ)
    (h0 : 0 ≤ s.tokens) (hle : s.tokens ≤ s.capacity) :
    0 ≤ (refillTokens s now).tokens := by
  simp only [refillTokens]
  split
  · rename_i hpos
    have h1 : (0 : ℚ) ≤ ((⌊(((now - s.lastRefill : ℕ) : ℚ) / 1000) * s.refillRate⌋ : ℤ) : ℚ) := by
      exact_mod_cast hpos.le
    exact le_min (le_trans h0 hle) (by linarith)
  · exact h0

theorem refill_le_capacity (s : TBState) (now : ℕ)
    (hle : s.tokens ≤ s.capacity) :
    (refillTokens s now).tokens ≤ s.capacity := by
  simp only [refillTokens]
  split
  · exact min_le_left _ _
  · exact hle

/-- Folding any sequence of timer refills over a bucket keeps its
configuration, keeps tokens within `[0, capacity]`, and either leaves the
whole state exactly as it started or leaves at least one token. -/
theorem foldl_refill_cases (ts : List ℕ) :
    ∀ s : TBState, 1 ≤ s.capacity → 0 ≤ s.tokens → s.tokens ≤ s.capacity →
      (ts.foldl refillTokens s).capacity = s.capacity ∧
      (ts.foldl refillTokens s).refillRate = s.refillRate ∧
      0 ≤ (ts.foldl refillTokens s).tokens ∧
      (ts.foldl refillTokens s).tokens ≤ s.capacity ∧
      (1 ≤ (ts.foldl refillTokens s).tokens ∨ ts.foldl refillTokens s = s) := by
  induction ts with
  | nil => exact fun s _ h0 hle => ⟨rfl, rfl, h0, hle, Or.inr rfl⟩
  | cons τ ts ih =>
    intro s hcap h0 hle
    have hcap' : 1 ≤ (refillTokens s τ).capacity := (refill_capacity s τ).symm ▸ hcap
    have h0' : 0 ≤ (refillTokens s τ).tokens := refill_nonneg s τ h0 hle
    have hle' : (refillTokens s τ).tokens ≤ (refillTokens s τ).capacity :=
      (refill_capacity s τ).symm ▸ refill_le_capacity s τ hle
    obtain ⟨hc, hr, hn, hl, hd⟩ := ih (refillTokens s τ) hcap' h0' hle'
    refine ⟨hc.trans (refill_capacity s τ), hr.trans (refill_rate s τ), hn,
      hl.trans ((refill_capacity s τ).le), ?_⟩
    rcases hd with h1 | heq
    · exact Or.inl h1
    · rcases refill_id_or_one_le s τ hcap h0 with hid | h1
      · exact Or.inr (heq.trans hid)
      · exact Or.inl (heq ▸ h1)

/-- C9: if `getTimeUntilNextToken()` returns `d` for a bucket state read at
time `t` (and `d = 0` whenever a token is available), then — whatever timer
refills happen in between — a `consume(1)` at any time `t' ≥ t + d` succeeds,
for a bucket with capacity ≥ 1, positive refill rate, and a whole (0 or ≥ 1)
non-negative token count not above capacity. -/
theorem consume_succeeds_after_wait (s : TBState) (t t' : ℕ) (ts : List ℕ)
    (hcap : 1 ≤ s.capacity) (hrate : 0 < s.refillRate)
    (hlr : s.lastRefill ≤ t)
    (hint : s.tokens = 0 ∨ 1 ≤ s.tokens)
    (hle : s.tokens ≤ s.capacity)
    (ht' : t + getTimeUntilNextToken s ≤ t') :
    (1 ≤ s.tokens → getTimeUntilNextToken s = 0) ∧
    (consume (ts.foldl refillTokens s) t' 1).1 = true := by
  have h0 : 0 ≤ s.tokens := by
    rcases hint with h | h
    · simp [h]
    · linarith
  constructor
  · intro h1
    simp [getTimeUntilNextToken, lt_of_lt_of_le one_pos h1]
  obtain ⟨hc, hr, hn, hl, hd⟩ := foldl_refill_cases ts s hcap h0 hle
  set u := ts.foldl refillTokens s with hu
  rw [consume_fst, decide_eq_true_iff]
  have key : ∀ v : TBState, 1 ≤ v.capacity → 0 ≤ v.tokens → 1 ≤ v.tokens →
      1 ≤ (refillTokens v t').tokens := by
    intro v hvc hv0 hv1
    rcases refill_id_or_one_le v t' hvc hv0 with hid | hone
    · rw [hid]; exact hv1
    · exact hone
  rcases hd with h1 | heq
  · exact key u (hc ▸ hcap) hn h1
  · rw [heq]
    rcases hint with hz | h1
    · -- the bucket was empty at `t`: waiting `⌈1000 / refillRate⌉` ms
      -- guarantees the floored refill adds at least one token
      have hd0 : getTimeUntilNextToken s = (⌈(1000 : ℚ) / s.refillRate⌉).toNat := by
        simp [getTimeUntilNextToken, hz]
      have hcpos : 0 < ⌈(1000 : ℚ) / s.refillRate⌉ :=
        Int.ceil_pos.mpr (by positivity)
      have htp : getTimeUntilNextToken s ≤ t' - s.lastRefill := by omega
      have htpq : ((⌈(1000 : ℚ) / s.refillRate⌉ : ℤ) : ℚ) ≤ ((t' - s.lastRefill : ℕ) : ℚ) := by
        rw [hd0] at htp
        calc ((⌈(1000 : ℚ) / s.refillRate⌉ : ℤ) : ℚ)
            = ((⌈(1000 : ℚ) / s.refillRate⌉.toNat : ℕ) : ℚ) := by
              exact_mod_cast (congrArg (fun z : ℤ => (z : ℚ)) (Int.toNat_of_nonneg hcpos.le)).symm
          _ ≤ ((t' - s.lastRefill : ℕ) : ℚ) := Nat.cast_le.mpr htp
      have hceil : (1000 : ℚ) / s.refillRate ≤ ((⌈(1000 : ℚ) / s.refillRate⌉ : ℤ) : ℚ) :=
        Int.le_ceil _
      have hx : (1 : ℚ) ≤ (((t' - s.lastRefill : ℕ) : ℚ) / 1000) * s.refillRate := by
        have h1000 : ((1000 : ℚ) / s.refillRate) / 1000 * s.refillRate = 1 := by
          field_simp
          ring
        have hmono : ((1000 : ℚ) / s.refillRate) / 1000 * s.refillRate ≤
            (((t' - s.lastRefill : ℕ) : ℚ) / 1000) * s.refillRate := by
          have : (1000 : ℚ) / s.refillRate ≤ ((t' - s.lastRefill : ℕ) : ℚ) :=
            le_trans hceil htpq
          have hdiv : ((1000 : ℚ) / s.refillRate) / 1000 ≤ ((t' - s.lastRefill : ℕ) : ℚ) / 1000 :=
            (div_le_div_iff_of_pos_right (by norm_num)).mpr this
          exact mul_le_mul_of_nonneg_right hdiv hrate.le
        linarith [h1000 ▸ hmono]
      have hfl : 0 < ⌊(((t' - s.lastRefill : ℕ) : ℚ) / 1000) * s.refillRate⌋ := by
        have := Int.le_floor.mpr (show ((1:ℤ):ℚ) ≤ _ by exact_mod_cast hx)
        omega
      simp only [refillTokens]
      rw [if_pos hfl]
      simp only
      have hq : (1 : ℚ) ≤ ((⌊(((t' - s.lastRefill : ℕ) : ℚ) / 1000) * s.refillRate⌋ : ℤ) : ℚ) := by
        exact_mod_cast hfl
      exact le_min hcap (by rw [hz]; linarith)
    · exact key s hcap h0 h1

/-- C9 witness: the trial-tier bucket (capacity 1, 1 token per 90 s), empty at
t = 0; `getTimeUntilNextToken` is at most 90000 ms and a `consume(1)` at
t = 90000 succeeds. -/
theorem consume_succeeds_after_wait_witness :
    (consume (List.foldl refillTokens ⟨1, 1 / 90, 0, 0⟩ []) 90000 1).1 = true :=
  (consume_succeeds_after_wait ⟨1, 1 / 90, 0, 0⟩ 0 90000 []
    (by norm_num) (by norm_num) (le_refl 0) (Or.inl rfl) (by norm_num)
    (by
      have hc : (⌈(1000 : ℚ) / (1 / 90)⌉ : ℤ) = 90000 := by
        rw [show (1000 : ℚ) / (1 / 90) = ((90000 : ℤ) : ℚ) by norm_num]
        exact Int.ceil_intCast 90000
      have hg : getTimeUntilNextToken ⟨1, 1 / 90, 0, 0⟩ = 90000 := by
        unfold getTimeUntilNextToken
        rw [if_neg (lt_irrefl 0), hc]
        rfl
      omega)).2

end TokenBucket

namespace Scheduler

/-- A queued request of `EnhancedRateLimiter.scheduleRequest`: its `priority`
(higher first) and `rid`, its position in the enqueue sequence (the claims
only concern dispatch order, so `execute`, `resolve`, `reject`, `endpoint` and
`timestamp` are elided). -/
structure SReq where
  priority : ℤ
  rid : ℕ
  deriving Repr, DecidableEq

/-- The insertion of `scheduleRequest`:
`insertIndex = findIndex(r => r.priority < priority)`, then `push` when no
index is found and `splice(insertIndex, 0, request)` otherwise. -/
def scheduleInsert (q : List SReq) (req : SReq) : List SReq :=
  match q.findIdx? (fun r => decide (r.priority < req.priority)) with
  | none => q ++ [req]
  | some i => q.insertIdx i req

/-- Recursive form of `scheduleInsert`: walk the queue and place the request
in front of the first strictly-lower-priority entry. -/
def insertRec (req : SReq) : List SReq → List SReq
  | [] => [req]
  | r :: rs => if r.priority < req.priority then req :: r :: rs else r :: insertRec req rs

theorem scheduleInsert_eq_insertRec (q : List SReq) (req : SReq) :
    scheduleInsert q req = insertRec req q := by
  induction q with
  | nil => rfl
  | cons r rs ih =>
    by_cases h : r.priority < req.priority
    · simp [scheduleInsert, insertRec, List.findIdx?_cons, h]
    · simp only [scheduleInsert, insertRec, List.findIdx?_cons, decide_eq_false h,
        Bool.false_eq_true, if_false, if_neg h]
      rw [List.findIdx?_succ]
      cases hfi : rs.findIdx? (fun r => decide (r.priority < req.priority)) with
      | none =>
        simp only [scheduleInsert, hfi] at ih
        simp [hfi, ih]
      | some i =>
        simp only [scheduleInsert, hfi] at ih
        simp [hfi, List.insertIdx_succ_cons, ih]

/-- The queue obtained by enqueueing the requests of `l` in order through
`scheduleRequest` onto an empty queue.  The drain loop dispatches the
resulting list front to back (`requestQueue.shift()`). -/
def enqueueAll (l : List SReq) : List SReq := l.foldl scheduleInsert []

/-- Request `a` is dispatched before `b` in conformance with the claim:
`a` has the higher priority, or equal priority and the earlier enqueue. -/
def dispatchBefore (a b : SReq) : Prop :=
  b.priority ≤ a.priority ∧ (a.priority = b.priority → a.rid < b.rid)

theorem insertRec_perm (req : SReq) (q : List SReq) :
    (insertRec req q).Perm (req :: q) := by
  induction q with
  | nil => exact List.Perm.refl _
  | cons r rs ih =>
    simp only [insertRec]
    by_cases h : r.priority < req.priority
    · rw [if_pos h]
    · rw [if_neg h]
      exact (ih.cons r).trans (List.Perm.swap req r rs)

theorem insertRec_mem {y req : SReq} {q : List SReq} :
    y ∈ insertRec req q ↔ y = req ∨ y ∈ q := by
  have := (insertRec_perm req q).mem_iff (a := y)
  simpa using this

theorem insertRec_pairwise (req : SReq) (q : List SReq)
    (hq : q.Pairwise dispatchBefore)
    (hid : ∀ r ∈ q, r.rid < req.rid) :
    (insertRec req q).Pairwise dispatchBefore := by
  induction q with
  | nil => simp [insertRec]
  | cons r rs ih =>
    obtain ⟨hrhd, hrs⟩ := List.pairwise_cons.mp hq
    simp only [insertRec]
    by_cases h : r.priority < req.priority
    · rw [if_pos h]
      refine List.Pairwise.cons ?_ hq
      intro y hy
      rcases List.mem_cons.mp hy with rfl | hyrs
      · exact ⟨h.le, fun he => absurd he.symm (ne_of_lt h)⟩
      · have hry := hrhd y hyrs
        have h1 := hry.1
        exact ⟨le_trans h1 h.le, fun he => by omega⟩
    · rw [if_neg h]
      refine List.Pairwise.cons ?_ (ih hrs fun x hx => hid x (List.mem_cons_of_mem r hx))
      intro y hy
      rcases insertRec_mem.mp hy with rfl | hyrs
      · exact ⟨not_lt.mp h, fun _ => hid r (List.mem_cons_self r rs)⟩
      · exact hrhd y hyrs

/-- Folding enqueues over a queue that is already correctly ordered, with all
new request ids strictly larger than the queued ones, keeps the queue
correctly ordered and permutes the union of both. -/
theorem foldl_scheduleInsert (l : List SReq) :
    ∀ q : List SReq, q.Pairwise dispatchBefore →
      (∀ r ∈ q, ∀ u ∈ l, r.rid < u.rid) →
      l.Pairwise (fun a b => a.rid < b.rid) →
      (l.foldl scheduleInsert q).Pairwise dispatchBefore ∧
      (l.foldl scheduleInsert q).Perm (q ++ l) := by
  induction l with
  | nil => exact fun q hq _ _ => ⟨hq, by simp⟩
  | cons x l ih =>
    intro q hq hql hl
    obtain ⟨hxl, hl'⟩ := List.pairwise_cons.mp hl
    rw [List.foldl_cons, scheduleInsert_eq_insertRec]
    have hq' : (insertRec x q).Pairwise dispatchBefore :=
      insertRec_pairwise x q hq fun r hr => hql r hr x (List.mem_cons_self x l)
    have hql' : ∀ r ∈ insertRec x q, ∀ u ∈ l, r.rid < u.rid := by
      intro r hr u hu
      rcases insertRec_mem.mp hr with rfl | hrq
      · exact hxl u hu
      · exact hql r hrq u (List.mem_cons_of_mem x hu)
    obtain ⟨hp, hperm⟩ := ih (insertRec x q) hq' hql' hl'
    refine ⟨hp, hperm.trans ?_⟩
    have h1 : (insertRec x q ++ l).Perm ((x :: q) ++ l) := (insertRec_perm x q).append_right l
    exact h1.trans List.perm_middle.symm

/-- C2: for every sequence of `scheduleRequest` enqueues (modelled as requests
carrying strictly increasing enqueue ids), the resulting dispatch order — the
queue front to back — contains exactly the enqueued requests, in strictly
descending-priority order with FIFO order among equal priorities. -/
theorem scheduleRequest_priority_fifo (l : List SReq)
    (hids : l.Pairwise (fun a b => a.rid < b.rid)) :
    (enqueueAll l).Pairwise dispatchBefore ∧ (enqueueAll l).Perm l := by
  have := foldl_scheduleInsert l [] (List.Pairwise.nil) (by simp) hids
  simpa [enqueueAll] using this

/-- C2 witness: three requests enqueued with priorities 1, 0, 2 (ids 0, 1, 2);
the theorem applies and yields the dispatch-order guarantees. -/
theorem scheduleRequest_priority_fifo_witness :
    (enqueueAll [⟨1, 0⟩, ⟨0, 1⟩, ⟨2, 2⟩]).Pairwise dispatchBefore ∧
    (enqueueAll [⟨1, 0⟩, ⟨0, 1⟩, ⟨2, 2⟩]).Perm [⟨1, 0⟩, ⟨0, 1⟩, ⟨2, 2⟩] :=
  scheduleRequest_priority_fifo [⟨1, 0⟩, ⟨0, 1⟩, ⟨2, 2⟩] (by decide)

/-- The spec's worked example, computed concretely: priorities [1, 0, 2]
enqueued in that order dispatch as [2, 1, 0]. -/
theorem scheduleRequest_example :
    (enqueueAll [⟨1, 0⟩, ⟨0, 1⟩, ⟨2, 2⟩]).map SReq.priority = [2, 1, 0] := by
  rfl

end Scheduler

namespace AdvLimiter

/-- `circuitBreakerThreshold = 5` in `AdvancedRateLimiter`. -/
def circuitBreakerThreshold : ℕ := 5

/-- `circuitBreakerResetTime = 300000` (5 minutes) in `AdvancedRateLimiter`. -/
def circuitBreakerResetTime : ℕ := 300000

/-- An error a request settles with: HTTP status (when any), message and the
optional parsed retry-after value consulted by the backoff computation. -/
structure RLError where
  status : Option ℕ
  message : List Char
  retryAfter : Option ℕ
  deriving Repr, DecidableEq

/-- A queued request of `AdvancedRateLimiter`: its `retryCount` and the
outcome its `requestFn()` settles with when executed (`resolve`/`reject`
channels and the enqueue timestamp are elided; payload values are modelled
as `ℚ`). -/
structure AReq where
  retryCount : ℕ
  result : Except RLError ℚ
  deriving Repr

/-- Mutable state of `AdvancedRateLimiter`: its token bucket, the pending
queue and the circuit-breaker fields. -/
structure AState where
  bucket : TokenBucket.TBState
  requestQueue : List AReq
  circuitBreakerFailures : ℕ
  lastCircuitBreakerTrip : ℕ
  maxRetries : ℕ
  deriving Repr

/-- `isCircuitBreakerOpen()`: when the failure count has reached the
threshold, report open while the reset time has not yet elapsed since the
last trip, and otherwise reset both counters (the OPEN → CLOSED transition)
and report closed. -/
def isCircuitBreakerOpen (s : AState) (now : ℕ) : Bool × AState :=
  if circuitBreakerThreshold ≤ s.circuitBreakerFailures then
    if now - s.lastCircuitBreakerTrip < circuitBreakerResetTime then (true, s)
    else (false, { s with circuitBreakerFailures := 0, lastCircuitBreakerTrip := 0 })
  else (false, s)

/-- The failure-recording tail of `handleRequestError`: increment
`circuitBreakerFailures` and stamp `lastCircuitBreakerTrip = Date.now()`
whenever the incremented count is at or above the threshold. -/
def recordFailureStep (s : AState) (now : ℕ) : AState :=
  let f := s.circuitBreakerFailures + 1
  { s with circuitBreakerFailures := f,
           lastCircuitBreakerTrip :=
             if circuitBreakerThreshold ≤ f then now else s.lastCircuitBreakerTrip }

/-- Outcome of `makeRequest` before any queue processing. -/
inductive MakeResult where
  | rejectedCircuitOpen
  | enqueued
  deriving Repr, DecidableEq

/-- `makeRequest`: the only circuit-breaker consultation — while open, the
returned promise is rejected at once and nothing is enqueued; otherwise the
request is pushed to the back of the queue (the subsequent `processQueue`
kick-off is modelled separately by `drainStep`). -/
def makeRequest (s : AState) (now : ℕ) (req : AReq) : MakeResult × AState :=
  let c := isCircuitBreakerOpen s now
  if c.1 then (MakeResult.rejectedCircuitOpen, c.2)
  else (MakeResult.enqueued, { c.2 with requestQueue := c.2.requestQueue ++ [req] })

/-- Boolean substring test used by the rate-limit error detection. -/
def containsSub (needle hay : List Char) : Bool :=
  hay.tails.any (fun t => needle.isPrefixOf t)

/-- `error.status === 429 || error.message.toLowerCase().includes("rate limit")`. -/
def isRateLimitError (e : RLError) : Bool :=
  e.status = some 429 || containsSub "rate limit".toList (e.message.map Char.toLower)

/-- What one iteration of the `processQueue` drain loop does to the head
request. -/
inductive StepOutcome where
  | resolved (v : ℚ)
  | retriedToFront
  | rejected (e : RLError)
  deriving Repr, DecidableEq

/-- `handleRequestError`: a rate-limit error with retries remaining is
re-enqueued at the front with an incremented retry counter (after a backoff
delay, which does not affect queue order); otherwise the failure is recorded
against the circuit breaker and the caller's promise rejected. -/
def handleRequestError (s : AState) (req : AReq) (e : RLError) (now : ℕ) :
    StepOutcome × AState :=
  if isRateLimitError e ∧ req.retryCount < s.maxRetries then
    (StepOutcome.retriedToFront,
      { s with requestQueue := { req with retryCount := req.retryCount + 1 } :: s.requestQueue })
  else
    (StepOutcome.rejected e, recordFailureStep s now)

/-- One iteration of the `processQueue` while-loop, at an instant where the
token bucket can serve `consume(1)` (otherwise `waitForToken` keeps the loop
waiting and no dequeue happens, modelled as `none`).  The head is dequeued,
a token consumed, and the request executed — the loop body never consults
the circuit breaker. -/
def drainStep (s : AState) (now : ℕ) : Option (StepOutcome × AState) :=
  match s.requestQueue with
  | [] => none
  | req :: rest =>
    let c := TokenBucket.consume s.bucket now 1
    if c.1 then
      let s1 : AState := { s with bucket := c.2, requestQueue := rest }
      match req.result with
      | Except.ok v => some (StepOutcome.resolved v, { s1 with circuitBreakerFailures := 0 })
      | Except.error e => some (handleRequestError s1 req e now)
    else none

theorem foldl_recordFailure_below (ts : List ℕ) :
    ∀ s : AState, s.circuitBreakerFailures + ts.length < circuitBreakerThreshold →
      ts.foldl recordFailureStep s =
        { s with circuitBreakerFailures := s.circuitBreakerFailures + ts.length } := by
  induction ts with
  | nil => intro s _; simp
  | cons τ ts ih =>
    intro s h
    simp only [List.length_cons] at h
    rw [List.foldl_cons]
    have hτ : recordFailureStep s τ =
        { s with circuitBreakerFailures := s.circuitBreakerFailures + 1 } := by
      unfold recordFailureStep
      simp only
      rw [if_neg (by unfold circuitBreakerThreshold at h ⊢; omega)]
    rw [hτ, ih _ (by simpa using by omega)]
    have harith : s.circuitBreakerFailures + 1 + ts.length =
        s.circuitBreakerFailures + (ts.length + 1) := by omega
    simp only [List.length_cons, harith]

/-- C3: starting from a zeroed consecutive-failure counter, exactly 5
(the source's `circuitBreakerThreshold`) failure recordings with no
intervening success leave the counter at the threshold with the trip time
stamped by the last recording; `isCircuitBreakerOpen` then reports open at
any query time within the 300000 ms reset window, and at any query time at or
past it reports closed while atomically zeroing the failure counter. -/
theorem circuitBreaker_opens_and_cools (s : AState) (ts : List ℕ) (tk tq : ℕ)
    (h0 : s.circuitBreakerFailures = 0) (hlen : ts.length = 4) :
    ((ts ++ [tk]).foldl recordFailureStep s).circuitBreakerFailures =
        circuitBreakerThreshold ∧
    ((ts ++ [tk]).foldl recordFailureStep s).lastCircuitBreakerTrip = tk ∧
    (tq - tk < circuitBreakerResetTime →
      isCircuitBreakerOpen ((ts ++ [tk]).foldl recordFailureStep s) tq =
        (true, (ts ++ [tk]).foldl recordFailureStep s)) ∧
    (circuitBreakerResetTime ≤ tq - tk →
      isCircuitBreakerOpen ((ts ++ [tk]).foldl recordFailureStep s) tq =
        (false, { (ts ++ [tk]).foldl recordFailureStep s with
                    circuitBreakerFailures := 0, lastCircuitBreakerTrip := 0 })) := by
  have hts : ts.foldl recordFailureStep s =
      { s with circuitBreakerFailures := 4 } := by
    have := foldl_recordFailure_below ts s (by
      unfold circuitBreakerThreshold
      omega)
    rw [this, h0, hlen]
  have hfold : (ts ++ [tk]).foldl recordFailureStep s =
      { s with circuitBreakerFailures := 5, lastCircuitBreakerTrip := tk } := by
    rw [List.foldl_append, hts]
    unfold recordFailureStep circuitBreakerThreshold
    simp
  have hf : ((ts ++ [tk]).foldl recordFailureStep s).circuitBreakerFailures = 5 := by
    rw [hfold]
  have hl : ((ts ++ [tk]).foldl recordFailureStep s).lastCircuitBreakerTrip = tk := by
    rw [hfold]
  refine ⟨by rw [hf]; rfl, hl, ?_, ?_⟩
  · intro hwin
    unfold isCircuitBreakerOpen
    rw [hf, hl, if_pos (by unfold circuitBreakerThreshold; omega),
      if_pos (by exact hwin)]
  · intro hpast
    unfold isCircuitBreakerOpen
    rw [hf, hl, if_pos (by unfold circuitBreakerThreshold; omega),
      if_neg (by omega)]

/-- C3 witness: failures recorded at t = 10, 20, 30, 40, 50 starting from a
fresh limiter; the breaker is open when queried at t = 60 (10 ms after the
trip, inside the 300000 ms window). -/
theorem circuitBreaker_opens_and_cools_witness :
    isCircuitBreakerOpen
        (([10, 20, 30, 40] ++ [50]).foldl recordFailureStep
          ⟨⟨1, 1, 1, 0⟩, [], 0, 0, 3⟩) 60 =
      (true, ([10, 20, 30, 40] ++ [50]).foldl recordFailureStep
          ⟨⟨1, 1, 1, 0⟩, [], 0, 0, 3⟩) :=
  (circuitBreaker_opens_and_cools ⟨⟨1, 1, 1, 0⟩, [], 0, 0, 3⟩
      [10, 20, 30, 40] 50 60 rfl rfl).2.2.1 (by unfold circuitBreakerResetTime; omega)

theorem isOpen_true_eq (s : AState) (now : ℕ)
    (h : (isCircuitBreakerOpen s now).1 = true) :
    isCircuitBreakerOpen s now = (true, s) := by
  by_cases h1 : circuitBreakerThreshold ≤ s.circuitBreakerFailures
  · by_cases h2 : now - s.lastCircuitBreakerTrip < circuitBreakerResetTime
    · simp [isCircuitBreakerOpen, h1, h2]
    · simp [isCircuitBreakerOpen, h1, h2] at h
  · simp [isCircuitBreakerOpen, h1] at h

theorem consume_one_from_full :
    TokenBucket.consume ⟨1, 1, 1, 0⟩ 1000 1 = (true, ⟨1, 1, 0, 1000⟩) := by
  have hfl : (⌊(((1000 - 0 : ℕ) : ℚ) / 1000) * (1 : ℚ)⌋ : ℤ) = 1 := by
    norm_num [Int.floor_eq_iff]
  have hrefill : TokenBucket.refillTokens ⟨1, 1, 1, 0⟩ 1000 = ⟨1, 1, 1, 1000⟩ := by
    simp only [TokenBucket.refillTokens, hfl]
    norm_num
  unfold TokenBucket.consume TokenBucket.canConsume
  rw [hrefill]
  norm_num

/-- C4 counterexample: a limiter whose breaker is open (5 failures, tripped at
t = 1000, queried at t = 1000) with one queued request that would succeed with
value 42 and a bucket holding one token.  The drain loop does not fail the
queued item: it executes it (outcome `resolved 42`) and consumes the token
(bucket tokens drop from 1 to 0), refuting "every item currently in the
request queue is failed immediately, without being executed and without
consuming a token". -/
theorem drain_executes_while_open_cex :
    (isCircuitBreakerOpen ⟨⟨1, 1, 1, 0⟩, [⟨0, Except.ok 42⟩], 5, 1000, 3⟩ 1000).1 = true ∧
    drainStep ⟨⟨1, 1, 1, 0⟩, [⟨0, Except.ok 42⟩], 5, 1000, 3⟩ 1000 =
      some (StepOutcome.resolved 42, ⟨⟨1, 1, 0, 1000⟩, [], 0, 1000, 3⟩) := by
  constructor
  · simp [isCircuitBreakerOpen, circuitBreakerThreshold, circuitBreakerResetTime]
  · simp only [drainStep, consume_one_from_full]
    rfl

/-- C4 (amended): the circuit breaker is consulted only at enqueue time.
While it reports open, a new `makeRequest` call is rejected immediately, with
nothing enqueued and no token consumed; but the drain loop itself never
checks the breaker — a queued request (here one whose execution succeeds
with value `v`, with a token available) is dispatched normally: the token is
consumed and the request executed rather than failed. -/
theorem circuitBreaker_checked_only_at_enqueue (s : AState) (now : ℕ) (req r : AReq)
    (v : ℚ) (rest : List AReq)
    (hopen : (isCircuitBreakerOpen s now).1 = true)
    (hq : s.requestQueue = r :: rest)
    (hr : r.result = Except.ok v)
    (htok : (TokenBucket.consume s.bucket now 1).1 = true) :
    makeRequest s now req = (MakeResult.rejectedCircuitOpen, s) ∧
    drainStep s now =
      some (StepOutcome.resolved v,
        { s with bucket := (TokenBucket.consume s.bucket now 1).2,
                 requestQueue := rest,
                 circuitBreakerFailures := 0 }) := by
  have heq := isOpen_true_eq s now hopen
  constructor
  · unfold makeRequest
    rw [heq]
    rfl
  · obtain ⟨b, q, cf, ltp, mr⟩ := s
    simp only at hq htok heq ⊢
    subst hq
    obtain ⟨rc, rres⟩ := r
    simp only at hr
    subst hr
    simp only [drainStep, htok, if_true]

/-- C4 witness: the amended theorem applied to the counterexample state. -/
theorem circuitBreaker_checked_only_at_enqueue_witness :
    makeRequest ⟨⟨1, 1, 1, 0⟩, [⟨0, Except.ok 42⟩], 5, 1000, 3⟩ 1000 ⟨0, Except.ok 7⟩ =
      (MakeResult.rejectedCircuitOpen, ⟨⟨1, 1, 1, 0⟩, [⟨0, Except.ok 42⟩], 5, 1000, 3⟩) ∧
    drainStep ⟨⟨1, 1, 1, 0⟩, [⟨0, Except.ok 42⟩], 5, 1000, 3⟩ 1000 =
      some (StepOutcome.resolved 42,
        { (⟨⟨1, 1, 1, 0⟩, [⟨0, Except.ok 42⟩], 5, 1000, 3⟩ : AState) with
            bucket := (TokenBucket.consume ⟨1, 1, 1, 0⟩ 1000 1).2,
            requestQueue := ([] : List AReq),
            circuitBreakerFailures := 0 }) :=
  circuitBreaker_checked_only_at_enqueue
    ⟨⟨1, 1, 1, 0⟩, [⟨0, Except.ok 42⟩], 5, 1000, 3⟩ 1000 ⟨0, Except.ok 7⟩ ⟨0, Except.ok 42⟩
    42 []
    (by simp [isCircuitBreakerOpen, circuitBreakerThreshold, circuitBreakerResetTime])
    rfl rfl (by rw [consume_one_from_full])

end AdvLimiter

namespace Cache

/-- A `CacheEntry`: payload (opaque, modelled as `ℕ`), creation timestamp,
expiry, access counter and `lastAccessed`. -/
structure CacheEntry where
  data : ℕ
  timestamp : ℕ
  expiresAt : ℕ
  accessCount : ℕ
  lastAccessed : ℕ
  deriving Repr, DecidableEq

/-- `CacheManager` state: the JS `Map` in insertion order plus the `maxSize`
and `defaultTTL` configuration. -/
structure CacheState where
  entries : List (String × CacheEntry)
  defaultTTL : ℕ
  maxSize : ℕ
  deriving Repr, DecidableEq

/-- `Map.set`: replace in place when the key exists (keeping its position),
append otherwise. -/
def mapSet (es : List (String × CacheEntry)) (k : String) (e : CacheEntry) :
    List (String × CacheEntry) :=
  match es with
  | [] => [(k, e)]
  | (k', e') :: rest => if k' = k then (k, e) :: rest else (k', e') :: mapSet rest k e

/-- `Map.delete`: drop the entry with the given key. -/
def mapDelete (es : List (String × CacheEntry)) (k : String) :
    List (String × CacheEntry) :=
  match es with
  | [] => []
  | (k', e') :: rest => if k' = k then rest else (k', e') :: mapDelete rest k

/-- Loop body of `evictOldest`: keep the key with the strictly smallest
`lastAccessed` seen so far. -/
def oldStep (acc : String × ℕ) (kv : String × CacheEntry) : String × ℕ :=
  if kv.2.lastAccessed < acc.2 then (kv.1, kv.2.lastAccessed) else acc

/-- The `evictOldest` scan: `oldestKey = ''`, `oldestTime = Date.now()`, then
one pass over the entries. -/
def findOldest (now : ℕ) (es : List (String × CacheEntry)) : String × ℕ :=
  es.foldl oldStep ("", now)

/-- `evictOldest()`: delete the found key — but only when `oldestKey` is
truthy, i.e. a non-empty string. -/
def evictOldest (st : CacheState) (now : ℕ) : CacheState :=
  let o := findOldest now st.entries
  if o.1 ≠ "" then { st with entries := mapDelete st.entries o.1 } else st

/-- `set(key, data, ttl)`: `ttl || defaultTTL` (a `ttl` of 0, like an omitted
one, falls back to the default), evict when `size >= maxSize`, then insert
the fresh entry with `accessCount = 0` and `lastAccessed = now`. -/
def cacheSet (st : CacheState) (k : String) (d : ℕ) (ttl : ℕ) (now : ℕ) : CacheState :=
  let timeToLive := if ttl = 0 then st.defaultTTL else ttl
  let st1 := if st.maxSize ≤ st.entries.length then evictOldest st now else st
  { st1 with entries := mapSet st1.entries k ⟨d, now, now + timeToLive, 0, now⟩ }

theorem foldl_oldStep_le (es : List (String × CacheEntry)) :
    ∀ acc : String × ℕ, (es.foldl oldStep acc).2 ≤ acc.2 ∧
      ∀ p ∈ es, (es.foldl oldStep acc).2 ≤ p.2.lastAccessed := by
  induction es with
  | nil => exact fun acc => ⟨le_refl _, by simp⟩
  | cons kv es ih =>
    intro acc
    rw [List.foldl_cons]
    obtain ⟨h1, h2⟩ := ih (oldStep acc kv)
    have hstep : (oldStep acc kv).2 ≤ acc.2 ∧ (oldStep acc kv).2 ≤ kv.2.lastAccessed := by
      unfold oldStep
      split
      · rename_i hlt
        exact ⟨le_of_lt hlt, le_refl _⟩
      · rename_i hge
        exact ⟨le_refl _, le_of_not_lt hge⟩
    refine ⟨le_trans h1 hstep.1, ?_⟩
    intro p hp
    rcases List.mem_cons.mp hp with rfl | hpes
    · exact le_trans h1 hstep.2
    · exact h2 p hpes

theorem foldl_oldStep_attained (es : List (String × CacheEntry)) :
    ∀ acc : String × ℕ, es.foldl oldStep acc = acc ∨
      ∃ p ∈ es, es.foldl oldStep acc = (p.1, p.2.lastAccessed) := by
  induction es with
  | nil => exact fun acc => Or.inl rfl
  | cons kv es ih =>
    intro acc
    rw [List.foldl_cons]
    rcases ih (oldStep acc kv) with heq | ⟨p, hp, heq⟩
    · rw [heq]
      unfold oldStep
      split
      · exact Or.inr ⟨kv, List.mem_cons_self kv es, rfl⟩
      · exact Or.inl rfl
    · exact Or.inr ⟨p, List.mem_cons_of_mem kv hp, heq⟩

theorem mapDelete_length (es : List (String × CacheEntry)) (k : String)
    (h : k ∈ es.map Prod.fst) :
    (mapDelete es k).length + 1 = es.length := by
  induction es with
  | nil => simp at h
  | cons kv es ih =>
    unfold mapDelete
    by_cases hk : kv.1 = k
    · rw [show (kv.1, kv.2) = kv from rfl, if_pos hk]
      rfl
    · rw [show (kv.1, kv.2) = kv from rfl, if_neg hk]
      have hmem : k ∈ es.map Prod.fst := by
        rcases List.mem_map.mp h with ⟨q, hq, hqk⟩
        rcases List.mem_cons.mp hq with rfl | hqes
        · exact absurd hqk hk
        · exact hqk ▸ List.mem_map_of_mem Prod.fst hqes
      simp only [List.length_cons]
      rw [← ih hmem]

theorem mapSet_length_le (es : List (String × CacheEntry)) (k : String) (e : CacheEntry) :
    (mapSet es k e).length ≤ es.length + 1 := by
  induction es with
  | nil => simp [mapSet]
  | cons kv es ih =>
    unfold mapSet
    by_cases hk : kv.1 = k
    · rw [show (kv.1, kv.2) = kv from rfl, if_pos hk]
      simp
    · rw [show (kv.1, kv.2) = kv from rfl, if_neg hk]
      simpa using ih

theorem findOldest_min (now : ℕ) (es : List (String × CacheEntry))
    (hkeys : ∀ p ∈ es, p.1 ≠ "")
    (hold : ∃ p ∈ es, p.2.lastAccessed < now) :
    ∃ p ∈ es, findOldest now es = (p.1, p.2.lastAccessed) ∧ p.1 ≠ "" ∧
      ∀ q ∈ es, p.2.lastAccessed ≤ q.2.lastAccessed := by
  obtain ⟨p0, hp0, hlt⟩ := hold
  have hle := foldl_oldStep_le es ("", now)
  have hlt2 : (findOldest now es).2 < now :=
    lt_of_le_of_lt (hle.2 p0 hp0) hlt
  rcases foldl_oldStep_attained es ("", now) with heq | ⟨p, hp, heq⟩
  · exfalso
    have h2 : findOldest now es = ("", now) := heq
    rw [h2] at hlt2
    exact lt_irrefl now hlt2
  · have hfo : findOldest now es = (p.1, p.2.lastAccessed) := heq
    refine ⟨p, hp, hfo, hkeys p hp, ?_⟩
    intro q hq
    have h3 : (findOldest now es).2 ≤ q.2.lastAccessed := hle.2 q hq
    rw [hfo] at h3
    exact h3

/-- C5 counterexample: a full cache (`maxSize = 1`) holding one entry last
accessed at t = 5; a `set` of a fresh key in the same millisecond (t = 5)
evicts nothing — `evictOldest` only considers entries with `lastAccessed`
strictly before `Date.now()` — and the entry count reaches 2 > `maxSize`. -/
theorem cache_overflow_same_millisecond_cex :
    (cacheSet ⟨[("a", ⟨0, 5, 1000, 0, 5⟩)], 300000, 1⟩ "b" 0 1000 5).entries.length = 2 ∧
    ¬ ((cacheSet ⟨[("a", ⟨0, 5, 1000, 0, 5⟩)], 300000, 1⟩ "b" 0 1000 5).entries.length ≤
        (⟨[("a", ⟨0, 5, 1000, 0, 5⟩)], 300000, 1⟩ : CacheState).maxSize) := by
  decide

/-- C5 (amended): a `set` keeps the entry count within `maxSize`, and when
performed on a full cache evicts exactly an entry with the oldest
`lastAccessedAt` (never one more recently accessed than a surviving entry) —
provided some stored entry was last accessed strictly before the current time
and keys are non-empty strings.  (When every entry's `lastAccessedAt` equals
the current millisecond nothing is evicted and the count can exceed
`maxSize`, as the counterexample shows.) -/
theorem cacheSet_capacity_and_lru (st : CacheState) (k : String) (d ttl now : ℕ)
    (hkeys : ∀ p ∈ st.entries, p.1 ≠ "")
    (hle : st.entries.length ≤ st.maxSize)
    (hold : st.maxSize ≤ st.entries.length → ∃ p ∈ st.entries, p.2.lastAccessed < now) :
    (cacheSet st k d ttl now).entries.length ≤ st.maxSize ∧
    (st.maxSize ≤ st.entries.length →
      ∃ p ∈ st.entries,
        (∀ q ∈ st.entries, p.2.lastAccessed ≤ q.2.lastAccessed) ∧
        (cacheSet st k d ttl now).entries =
          mapSet (mapDelete st.entries p.1) k
            ⟨d, now, now + (if ttl = 0 then st.defaultTTL else ttl), 0, now⟩) := by
  by_cases hfull : st.maxSize ≤ st.entries.length
  · obtain ⟨p, hp, hfo, hpne, hmin⟩ := findOldest_min now st.entries hkeys (hold hfull)
    have hev : evictOldest st now = { st with entries := mapDelete st.entries p.1 } := by
      unfold evictOldest
      rw [hfo, if_pos hpne]
    have hset : (cacheSet st k d ttl now).entries =
        mapSet (mapDelete st.entries p.1) k
          ⟨d, now, now + (if ttl = 0 then st.defaultTTL else ttl), 0, now⟩ := by
      unfold cacheSet
      rw [if_pos hfull, hev]
    have hkmem : p.1 ∈ st.entries.map Prod.fst := List.mem_map_of_mem Prod.fst hp
    have hdl := mapDelete_length st.entries p.1 hkmem
    have hlen : (cacheSet st k d ttl now).entries.length ≤ st.maxSize := by
      rw [hset]
      have := mapSet_length_le (mapDelete st.entries p.1) k
        ⟨d, now, now + (if ttl = 0 then st.defaultTTL else ttl), 0, now⟩
      omega
    exact ⟨hlen, fun _ => ⟨p, hp, hmin, hset⟩⟩
  · have hset : (cacheSet st k d ttl now).entries =
        mapSet st.entries k
          ⟨d, now, now + (if ttl = 0 then st.defaultTTL else ttl), 0, now⟩ := by
      unfold cacheSet
      rw [if_neg hfull]
    refine ⟨?_, fun h => absurd h hfull⟩
    rw [hset]
    have := mapSet_length_le st.entries k
      ⟨d, now, now + (if ttl = 0 then st.defaultTTL else ttl), 0, now⟩
    omega

/-- C5 witness: the same full cache, but the `set` happens at t = 6, one
millisecond after the stored entry's last access: the capacity bound holds. -/
theorem cacheSet_capacity_and_lru_witness :
    (cacheSet ⟨[("a", ⟨0, 5, 1000, 0, 5⟩)], 300000, 1⟩ "b" 0 1000 6).entries.length ≤
      (⟨[("a", ⟨0, 5, 1000, 0, 5⟩)], 300000, 1⟩ : CacheState).maxSize :=
  (cacheSet_capacity_and_lru ⟨[("a", ⟨0, 5, 1000, 0, 5⟩)], 300000, 1⟩ "b" 0 1000 6
    (by decide) (by decide)
    (fun _ => ⟨("a", ⟨0, 5, 1000, 0, 5⟩), by decide, by decide⟩)).1

end Cache

namespace Dedup

/-- `requestTTL = 30000` ms in `RequestDeduplicator`. -/
def requestTTL : ℕ := 30000

/-- A `PendingRequest` record: the shared promise (modelled by a numeric
identity — two callers share the outcome iff they hold the same id) and its
registration timestamp. -/
structure PendingRecord where
  promiseId : ℕ
  timestamp : ℕ
  deriving Repr, DecidableEq

/-- `RequestDeduplicator` state: the `pendingRequests` map (insertion order)
and a counter issuing fresh promise identities. -/
structure DedupState where
  pending : List (String × PendingRecord)
  nextPromiseId : ℕ
  deriving Repr, DecidableEq

/-- `cleanupExpiredRequests()`: delete every record with
`now - timestamp > requestTTL`. -/
def cleanupExpiredRequests (st : DedupState) (now : ℕ) : DedupState :=
  { st with pending := st.pending.filter (fun kv => decide (now - kv.2.timestamp ≤ requestTTL)) }

/-- `pendingRequests.get(key)`. -/
def lookup (ps : List (String × PendingRecord)) (k : String) : Option PendingRecord :=
  (ps.find? (fun kv => kv.1 = k)).map Prod.snd

/-- `pendingRequests.delete(key)`. -/
def mapDeleteD (ps : List (String × PendingRecord)) (k : String) :
    List (String × PendingRecord) :=
  match ps with
  | [] => []
  | (k', r) :: rest => if k' = k then rest else (k', r) :: mapDeleteD rest k

/-- `deduplicate(key, requestFn)`: clean expired records; return the existing
pending promise when one is registered under `key` (without invoking
`requestFn`, second component `false`); otherwise invoke `requestFn`
(component `true`), register the fresh promise under `key` with the current
timestamp, and return it. -/
def deduplicate (st : DedupState) (k : String) (now : ℕ) : ℕ × Bool × DedupState :=
  let st1 := cleanupExpiredRequests st now
  match lookup st1.pending k with
  | some r => (r.promiseId, false, st1)
  | none =>
    (st1.nextPromiseId, true,
      { pending := st1.pending ++ [(k, ⟨st1.nextPromiseId, now⟩)],
        nextPromiseId := st1.nextPromiseId + 1 })

/-- The `.finally(() => pendingRequests.delete(key))` attached to the created
promise: when the underlying future settles — fulfilled or rejected — the
registration is removed. -/
def settle (st : DedupState) (k : String) : DedupState :=
  { st with pending := mapDeleteD st.pending k }

theorem lookup_eq_none_iff (ps : List (String × PendingRecord)) (k : String) :
    lookup ps k = none ↔ ∀ kv ∈ ps, kv.1 ≠ k := by
  simp [lookup, List.find?_eq_none]

theorem lookup_append_of_none (l1 l2 : List (String × PendingRecord)) (k : String)
    (h : lookup l1 k = none) :
    lookup (l1 ++ l2) k = lookup l2 k := by
  induction l1 with
  | nil => rfl
  | cons kv l1 ih =>
    have hk : kv.1 ≠ k := (lookup_eq_none_iff _ k).mp h kv (List.mem_cons_self kv l1)
    have h' : lookup l1 k = none :=
      (lookup_eq_none_iff _ k).mpr fun p hp =>
        (lookup_eq_none_iff _ k).mp h p (List.mem_cons_of_mem kv hp)
    unfold lookup
    rw [List.cons_append, List.find?_cons_of_neg _ (by simp [hk])]
    exact ih h'

theorem mapDeleteD_append_last (l1 : List (String × PendingRecord)) (k : String)
    (r : PendingRecord) (h : ∀ kv ∈ l1, kv.1 ≠ k) :
    mapDeleteD (l1 ++ [(k, r)]) k = l1 := by
  induction l1 with
  | nil => simp [mapDeleteD]
  | cons kv l1 ih =>
    have hk : kv.1 ≠ k := h kv (List.mem_cons_self kv l1)
    show mapDeleteD ((kv.1, kv.2) :: (l1 ++ [(k, r)])) k = kv :: l1
    unfold mapDeleteD
    rw [if_neg hk]
    rw [show (kv.1, kv.2) = kv from rfl,
      ih fun p hp => h p (List.mem_cons_of_mem kv hp)]

/-- C6 counterexample: two `deduplicate("X", ...)` calls, the second 30001 ms
after the first, with the first call's future still unsettled.  The TTL sweep
(`requestTTL = 30000`) has deleted the still-pending record, so the factory is
invoked a second time and the two callers hold different promises — refuting
"the factory function is invoked exactly once and both callers receive the
same shared outcome" for this pair of calls. -/
theorem dedupe_reinvokes_after_ttl_cex :
    (deduplicate ⟨[], 0⟩ "X" 0).2.1 = true ∧
    (deduplicate (deduplicate ⟨[], 0⟩ "X" 0).2.2 "X" 30001).2.1 = true ∧
    (deduplicate (deduplicate ⟨[], 0⟩ "X" 0).2.2 "X" 30001).1 ≠
      (deduplicate ⟨[], 0⟩ "X" 0).1 := by
  decide

/-- C6 (amended): when the second call for the same key comes no more than
`requestTTL` (30 s) after the first call registered it, and the first call's
future has not settled in between, the factory runs only on the first call
(`true` then `false`), both callers receive the identical shared promise, and
the `finally` hook removes the registration once the future settles,
regardless of outcome. -/
theorem dedupe_shares_within_ttl (st : DedupState) (k : String) (t1 t2 : ℕ)
    (hfresh : lookup (cleanupExpiredRequests st t1).pending k = none)
    (_h12 : t1 ≤ t2) (httl : t2 - t1 ≤ requestTTL) :
    (deduplicate st k t1).2.1 = true ∧
    (deduplicate (deduplicate st k t1).2.2 k t2).2.1 = false ∧
    (deduplicate (deduplicate st k t1).2.2 k t2).1 = (deduplicate st k t1).1 ∧
    lookup (settle (deduplicate (deduplicate st k t1).2.2 k t2).2.2 k).pending k
      = none := by
  have h1 : deduplicate st k t1 =
      ((cleanupExpiredRequests st t1).nextPromiseId, true,
        ⟨(cleanupExpiredRequests st t1).pending ++
            [(k, ⟨(cleanupExpiredRequests st t1).nextPromiseId, t1⟩)],
          (cleanupExpiredRequests st t1).nextPromiseId + 1⟩) := by
    simp only [deduplicate, hfresh]
  have hkeysc1 : ∀ kv ∈ (cleanupExpiredRequests st t1).pending, kv.1 ≠ k :=
    (lookup_eq_none_iff _ k).mp hfresh
  have hkeep : (fun kv : String × PendingRecord =>
      decide (t2 - kv.2.timestamp ≤ requestTTL))
        (k, ⟨(cleanupExpiredRequests st t1).nextPromiseId, t1⟩) = true := by
    simpa using httl
  have hpref : ∀ kv ∈ (cleanupExpiredRequests st t1).pending.filter
      (fun kv => decide (t2 - kv.2.timestamp ≤ requestTTL)), kv.1 ≠ k :=
    fun p hp => hkeysc1 p (List.mem_of_mem_filter hp)
  have hpref_none : lookup ((cleanupExpiredRequests st t1).pending.filter
      (fun kv => decide (t2 - kv.2.timestamp ≤ requestTTL))) k = none :=
    (lookup_eq_none_iff _ k).mpr hpref
  have hclean2 : (cleanupExpiredRequests (deduplicate st k t1).2.2 t2).pending =
      (cleanupExpiredRequests st t1).pending.filter
          (fun kv => decide (t2 - kv.2.timestamp ≤ requestTTL)) ++
        [(k, ⟨(cleanupExpiredRequests st t1).nextPromiseId, t1⟩)] := by
    rw [h1]
    unfold cleanupExpiredRequests
    simp only [List.filter_append]
    rw [List.filter_cons]
    simp only [hkeep, if_pos]
    rfl
  have hlook2 : lookup (cleanupExpiredRequests (deduplicate st k t1).2.2 t2).pending k =
      some ⟨(cleanupExpiredRequests st t1).nextPromiseId, t1⟩ := by
    rw [hclean2, lookup_append_of_none _ _ _ hpref_none]
    simp [lookup]
  have hit : ∀ X : DedupState, ∀ r : PendingRecord,
      lookup (cleanupExpiredRequests X t2).pending k = some r →
      deduplicate X k t2 = (r.promiseId, false, cleanupExpiredRequests X t2) := by
    intro X r hX
    simp only [deduplicate, hX]
  have h2 : deduplicate (deduplicate st k t1).2.2 k t2 =
      ((cleanupExpiredRequests st t1).nextPromiseId, false,
        cleanupExpiredRequests (deduplicate st k t1).2.2 t2) :=
    hit (deduplicate st k t1).2.2 ⟨(cleanupExpiredRequests st t1).nextPromiseId, t1⟩ hlook2
  refine ⟨by rw [h1], by rw [h2], by rw [h2, h1], ?_⟩
  rw [h2]
  show lookup (mapDeleteD (cleanupExpiredRequests (deduplicate st k t1).2.2 t2).pending k) k
    = none
  rw [hclean2, mapDeleteD_append_last _ _ _ hpref]
  exact hpref_none

/-- C6 witness: a fresh deduplicator; the two calls are 30000 ms apart,
exactly at the TTL boundary, and share the promise. -/
theorem dedupe_shares_within_ttl_witness :
    (deduplicate (⟨[], 0⟩ : DedupState) "X" 0).2.1 = true ∧
    (deduplicate (deduplicate (⟨[], 0⟩ : DedupState) "X" 0).2.2 "X" 30000).2.1 = false ∧
    (deduplicate (deduplicate (⟨[], 0⟩ : DedupState) "X" 0).2.2 "X" 30000).1 =
      (deduplicate (⟨[], 0⟩ : DedupState) "X" 0).1 ∧
    lookup (settle
        (deduplicate (deduplicate (⟨[], 0⟩ : DedupState) "X" 0).2.2 "X" 30000).2.2
        "X").pending "X" = none :=
  dedupe_shares_within_ttl ⟨[], 0⟩ "X" 0 30000 (by decide) (by decide) (by decide)

end Dedup

namespace Monitor

/-- The `status` argument of `APIMonitor.recordRequest`. -/
inductive RStatus where
  | success
  | error
  | rate_limited
  deriving Repr, DecidableEq

/-- The running aggregates of `APIMetrics` (the bounded request-history ring,
`lastError` and persistence do not affect the aggregate invariants). -/
structure Metrics where
  totalRequests : ℕ
  successfulRequests : ℕ
  failedRequests : ℕ
  rateLimitHits : ℕ
  averageResponseTime : ℚ
  deriving Repr, DecidableEq

/-- `recordRequest(endpoint, startTime, status, error?)` aggregate updates:
`totalRequests++`; `successfulRequests++` on success, else
`failedRequests++` (plus `rateLimitHits++` when rate-limited); then
`averageResponseTime = (averageResponseTime * (totalRequests - 1) +
responseTime) / totalRequests` — computed over every recorded call. -/
def recordRequest (m : Metrics) (status : RStatus) (responseTime : ℚ) : Metrics :=
  let total := m.totalRequests + 1
  let succ := if status = RStatus.success then m.successfulRequests + 1
              else m.successfulRequests
  let failed := if status = RStatus.success then m.failedRequests
                else m.failedRequests + 1
  let hits := if status = RStatus.rate_limited then m.rateLimitHits + 1
              else m.rateLimitHits
  let avg := (m.averageResponseTime * ((total : ℚ) - 1) + responseTime) / (total : ℚ)
  ⟨total, succ, failed, hits, avg⟩

/-- The zeroed metrics the monitor starts from. -/
def zeroMetrics : Metrics := ⟨0, 0, 0, 0, 0⟩

/-- Fold a sequence of `(status, durationMs)` recordings over a metrics
value. -/
def recordFold (m : Metrics) (l : List (RStatus × ℚ)) : Metrics :=
  l.foldl (fun acc r => recordRequest acc r.1 r.2) m

/-- All recordings applied from the zeroed metrics. -/
def recordAll (l : List (RStatus × ℚ)) : Metrics := recordFold zeroMetrics l

/-- Modelled from the spec (for claim C7 only, to compare against the code):
"averageResponseTime is the mean duration over calls classified success". -/
def specSuccessMean (l : List (RStatus × ℚ)) : ℚ :=
  let ds := (l.filter (fun r => r.1 = RStatus.success)).map Prod.snd
  ds.sum / (ds.length : ℚ)

theorem recordFold_stats (l : List (RStatus × ℚ)) :
    ∀ m : Metrics,
      (recordFold m l).totalRequests = m.totalRequests + l.length ∧
      (recordFold m l).successfulRequests = m.successfulRequests +
        (l.filter (fun r => r.1 = RStatus.success)).length ∧
      (recordFold m l).failedRequests = m.failedRequests +
        (l.filter (fun r => ¬ r.1 = RStatus.success)).length ∧
      (recordFold m l).rateLimitHits = m.rateLimitHits +
        (l.filter (fun r => r.1 = RStatus.rate_limited)).length ∧
      (recordFold m l).averageResponseTime * (((recordFold m l).totalRequests : ℕ) : ℚ) =
        m.averageResponseTime * ((m.totalRequests : ℕ) : ℚ) + (l.map Prod.snd).sum := by
  induction l with
  | nil => exact fun m => ⟨rfl, rfl, rfl, rfl, by simp [recordFold]⟩
  | cons x l ih =>
    intro m
    have hstep : recordFold m (x :: l) = recordFold (recordRequest m x.1 x.2) l := rfl
    obtain ⟨ht, hs, hf, hh, ha⟩ := ih (recordRequest m x.1 x.2)
    have htot : (recordRequest m x.1 x.2).totalRequests = m.totalRequests + 1 := rfl
    have havg : (recordRequest m x.1 x.2).averageResponseTime *
        (((recordRequest m x.1 x.2).totalRequests : ℕ) : ℚ) =
        m.averageResponseTime * ((m.totalRequests : ℕ) : ℚ) + x.2 := by
      show (m.averageResponseTime * (((m.totalRequests + 1 : ℕ) : ℚ) - 1) + x.2) /
          ((m.totalRequests + 1 : ℕ) : ℚ) * ((m.totalRequests + 1 : ℕ) : ℚ) =
          m.averageResponseTime * ((m.totalRequests : ℕ) : ℚ) + x.2
      rw [div_mul_cancel₀ _ (by exact_mod_cast Nat.succ_ne_zero m.totalRequests)]
      push_cast
      ring
    refine ⟨?_, ?_, ?_, ?_, ?_⟩
    · rw [hstep, ht, htot, List.length_cons]
      omega
    · rw [hstep, hs]
      by_cases hx : x.1 = RStatus.success
      · have : (recordRequest m x.1 x.2).successfulRequests =
            m.successfulRequests + 1 := by
          simp [recordRequest, hx]
        rw [this, List.filter_cons, if_pos (by simpa using hx)]
        simp only [List.length_cons]
        omega
      · have : (recordRequest m x.1 x.2).successfulRequests =
            m.successfulRequests := by
          simp [recordRequest, hx]
        rw [this, List.filter_cons, if_neg (by simpa using hx)]
    · rw [hstep, hf]
      by_cases hx : x.1 = RStatus.success
      · have : (recordRequest m x.1 x.2).failedRequests = m.failedRequests := by
          simp [recordRequest, hx]
        rw [this, List.filter_cons, if_neg (by simpa using hx)]
      · have : (recordRequest m x.1 x.2).failedRequests = m.failedRequests + 1 := by
          simp [recordRequest, hx]
        rw [this, List.filter_cons, if_pos (by simpa using hx)]
        simp only [List.length_cons]
        omega
    · rw [hstep, hh]
      by_cases hx : x.1 = RStatus.rate_limited
      · have : (recordRequest m x.1 x.2).rateLimitHits = m.rateLimitHits + 1 := by
          simp [recordRequest, hx]
        rw [this, List.filter_cons, if_pos (by simpa using hx)]
        simp only [List.length_cons]
        omega
      · have : (recordRequest m x.1 x.2).rateLimitHits = m.rateLimitHits := by
          simp [recordRequest, hx]
        rw [this, List.filter_cons, if_neg (by simpa using hx)]
    · rw [hstep, ha, havg, List.map_cons, List.sum_cons]
      ring

theorem length_filter_success_split (l : List (RStatus × ℚ)) :
    (l.filter (fun r => r.1 = RStatus.success)).length +
      (l.filter (fun r => ¬ r.1 = RStatus.success)).length = l.length := by
  induction l with
  | nil => rfl
  | cons x l ih =>
    by_cases hx : x.1 = RStatus.success
    · rw [List.filter_cons, List.filter_cons, if_pos (by simpa using hx),
        if_neg (by simpa using hx)]
      simp only [List.length_cons]
      omega
    · rw [List.filter_cons, List.filter_cons, if_neg (by simpa using hx),
        if_pos (by simpa using hx)]
      simp only [List.length_cons]
      omega

/-- C7 counterexample: recording a success of 100 ms and then an error of
0 ms gives `averageResponseTime = 50`, while the mean over success-classified
calls is 100: the running average incorporates every recorded call, not only
successes. -/
theorem monitor_avg_counts_all_cex :
    (recordAll [(RStatus.success, 100), (RStatus.error, 0)]).averageResponseTime = 50 ∧
    specSuccessMean [(RStatus.success, 100), (RStatus.error, 0)] = 100 ∧
    (recordAll [(RStatus.success, 100), (RStatus.error, 0)]).averageResponseTime ≠
      specSuccessMean [(RStatus.success, 100), (RStatus.error, 0)] := by
  have h1 : (recordAll [(RStatus.success, 100), (RStatus.error, 0)]).averageResponseTime
      = 50 := by
    simp only [recordAll, recordFold, zeroMetrics, List.foldl_cons, List.foldl_nil,
      recordRequest]
    norm_num
  have h2 : specSuccessMean [(RStatus.success, 100), (RStatus.error, 0)] = 100 := by
    have hne : (decide (RStatus.error = RStatus.success)) = false := by decide
    have hye : (decide (RStatus.success = RStatus.success)) = true := by decide
    simp only [specSuccessMean, List.filter_cons, List.filter_nil, hne, hye,
      Bool.false_eq_true, if_false, if_true]
    norm_num
  exact ⟨h1, h2, by rw [h1, h2]; norm_num⟩

/-- C7 (amended): from zeroed metrics, after any sequence of recordings,
`totalRequests = successfulRequests + failedRequests` with rate-limited calls
counted among the failed ones (and tallied in `rateLimitHits`); but
`averageResponseTime` is the arithmetic mean of the durations of all recorded
calls — stated as `average × total = sum of every duration` — not of the
success-classified calls only. -/
theorem monitor_totals_and_average (l : List (RStatus × ℚ)) :
    (recordAll l).totalRequests = l.length ∧
    (recordAll l).successfulRequests =
      (l.filter (fun r => r.1 = RStatus.success)).length ∧
    (recordAll l).failedRequests =
      (l.filter (fun r => ¬ r.1 = RStatus.success)).length ∧
    (recordAll l).rateLimitHits =
      (l.filter (fun r => r.1 = RStatus.rate_limited)).length ∧
    (recordAll l).totalRequests =
      (recordAll l).successfulRequests + (recordAll l).failedRequests ∧
    (recordAll l).averageResponseTime * (((recordAll l).totalRequests : ℕ) : ℚ) =
      (l.map Prod.snd).sum := by
  obtain ⟨ht, hs, hf, hh, ha⟩ := recordFold_stats l zeroMetrics
  have hz : recordAll l = recordFold zeroMetrics l := rfl
  refine ⟨by rw [hz, ht]; simp [zeroMetrics], by rw [hz, hs]; simp [zeroMetrics],
    by rw [hz, hf]; simp [zeroMetrics], by rw [hz, hh]; simp [zeroMetrics], ?_, ?_⟩
  · rw [hz, ht, hs, hf]
    have := length_filter_success_split l
    simp only [zeroMetrics] at *
    omega
  · rw [hz, ha]
    show (0 : ℚ) * ((0 : ℕ) : ℚ) + (l.map Prod.snd).sum = (l.map Prod.snd).sum
    norm_num

end Monitor

namespace Client

/-- The fields of a thrown `APIError` that matter to the taxonomy claims:
machine-readable `code`, HTTP `status` and the optional parsed retry-after
value (the human-readable message strings are elided). -/
structure APIErrorInfo where
  status : Option ℕ
  code : Option String
  retryAfter : Option ℕ
  deriving Repr, DecidableEq

/-- What the response interceptor reads from `error.response`: the HTTP
status, a parsed `retry-after` header when present, and
`error.response.data?.code`. -/
structure ResponseInfo where
  status : ℕ
  retryAfter : Option ℕ
  dataCode : Option String
  deriving Repr, DecidableEq

/-- An axios failure as the interceptor branches on it: a response (when one
arrived), a request that got no response (`error.request`, with the
transport-level `error.code`), or a setup error (neither). -/
structure AxiosFailure where
  response : Option ResponseInfo
  hasRequest : Bool
  transportCode : Option String
  deriving Repr, DecidableEq

/-- The response interceptor's error classification: the `switch (status)`
over 401 / 403 / 429 / 404 / 500 / 503 with its default branch taking the
code from the response body, then the no-response cases (`ECONNABORTED` →
TIMEOUT, `ENOTFOUND` → DNS_ERROR, otherwise NETWORK_ERROR), then UNKNOWN for
request-setup failures. -/
def classifyError (e : AxiosFailure) : APIErrorInfo :=
  match e.response with
  | some r =>
    if r.status = 401 then ⟨some 401, some "INVALID_API_KEY", none⟩
    else if r.status = 403 then ⟨some 403, some "INSUFFICIENT_PERMISSIONS", none⟩
    else if r.status = 429 then ⟨some 429, some "RATE_LIMIT", r.retryAfter⟩
    else if r.status = 404 then ⟨some 404, some "NOT_FOUND", none⟩
    else if r.status = 500 then ⟨some 500, some "SERVER_ERROR", none⟩
    else if r.status = 503 then ⟨some 503, some "SERVICE_UNAVAILABLE", r.retryAfter⟩
    else ⟨some r.status, r.dataCode, none⟩
  | none =>
    if e.hasRequest then
      if e.transportCode = some "ECONNABORTED" then ⟨none, some "TIMEOUT", none⟩
      else if e.transportCode = some "ENOTFOUND" then ⟨none, some "DNS_ERROR", none⟩
      else ⟨none, some "NETWORK_ERROR", none⟩
    else ⟨none, some "UNKNOWN", none⟩

/-- Modelled from the spec (for claim C8 only, to compare against the code):
the claimed taxonomy maps "any 5xx other than 503" to `SERVER_ERROR` and
"anything else" to `UNKNOWN`. -/
def specClassifyCode (e : AxiosFailure) : Option String :=
  match e.response with
  | some r =>
    if r.status = 401 then some "INVALID_API_KEY"
    else if r.status = 403 then some "INSUFFICIENT_PERMISSIONS"
    else if r.status = 429 then some "RATE_LIMIT"
    else if r.status = 404 then some "NOT_FOUND"
    else if r.status = 503 then some "SERVICE_UNAVAILABLE"
    else if 500 ≤ r.status ∧ r.status ≤ 599 then some "SERVER_ERROR"
    else some "UNKNOWN"
  | none =>
    if e.hasRequest then
      if e.transportCode = some "ECONNABORTED" then some "TIMEOUT"
      else if e.transportCode = some "ENOTFOUND" then some "DNS_ERROR"
      else some "NETWORK_ERROR"
    else some "UNKNOWN"

/-- C8 counterexample: an HTTP 502 response with no body code.  The spec's
taxonomy demands `SERVER_ERROR` (5xx non-503), but the interceptor's switch
only handles exactly 500, so 502 falls to the default branch and the thrown
error carries no code at all. -/
theorem http502_not_server_error_cex :
    (classifyError ⟨some ⟨502, none, none⟩, true, none⟩).code = none ∧
    specClassifyCode ⟨some ⟨502, none, none⟩, true, none⟩ = some "SERVER_ERROR" ∧
    (classifyError ⟨some ⟨502, none, none⟩, true, none⟩).code ≠
      specClassifyCode ⟨some ⟨502, none, none⟩, true, none⟩ := by
  decide

/-- C8 (amended): the interceptor classifies exactly by: 401 →
INVALID_API_KEY, 403 → INSUFFICIENT_PERMISSIONS, 429 → RATE_LIMIT with the
retry-after value, 404 → NOT_FOUND, exactly 500 (not other 5xx) →
SERVER_ERROR, 503 → SERVICE_UNAVAILABLE with the retry-after value; any other
status (including 502, 504, ...) gets the code taken from the response body
(possibly absent), not UNKNOWN; with no response, ECONNABORTED → TIMEOUT,
ENOTFOUND → DNS_ERROR, otherwise NETWORK_ERROR; UNKNOWN only for
request-setup failures. -/
theorem error_taxonomy (ra : Option ℕ) (dc : Option String) (s : ℕ) (tc : Option String)
    (hs : s ∉ ([401, 403, 429, 404, 500, 503] : List ℕ))
    (htc : tc ≠ some "ECONNABORTED" ∧ tc ≠ some "ENOTFOUND") :
    classifyError ⟨some ⟨401, ra, dc⟩, true, tc⟩ = ⟨some 401, some "INVALID_API_KEY", none⟩ ∧
    classifyError ⟨some ⟨403, ra, dc⟩, true, tc⟩ =
      ⟨some 403, some "INSUFFICIENT_PERMISSIONS", none⟩ ∧
    classifyError ⟨some ⟨429, ra, dc⟩, true, tc⟩ = ⟨some 429, some "RATE_LIMIT", ra⟩ ∧
    classifyError ⟨some ⟨404, ra, dc⟩, true, tc⟩ = ⟨some 404, some "NOT_FOUND", none⟩ ∧
    classifyError ⟨some ⟨500, ra, dc⟩, true, tc⟩ = ⟨some 500, some "SERVER_ERROR", none⟩ ∧
    classifyError ⟨some ⟨503, ra, dc⟩, true, tc⟩ =
      ⟨some 503, some "SERVICE_UNAVAILABLE", ra⟩ ∧
    classifyError ⟨some ⟨s, ra, dc⟩, true, tc⟩ = ⟨some s, dc, none⟩ ∧
    classifyError ⟨none, true, some "ECONNABORTED"⟩ = ⟨none, some "TIMEOUT", none⟩ ∧
    classifyError ⟨none, true, some "ENOTFOUND"⟩ = ⟨none, some "DNS_ERROR", none⟩ ∧
    classifyError ⟨none, true, tc⟩ = ⟨none, some "NETWORK_ERROR", none⟩ ∧
    classifyError ⟨none, false, tc⟩ = ⟨none, some "UNKNOWN", none⟩ := by
  simp only [List.mem_cons, List.not_mem_nil, or_false] at hs
  push_neg at hs
  obtain ⟨h1, h2, h3, h4, h5, h6⟩ := hs
  refine ⟨rfl, rfl, rfl, rfl, rfl, rfl, ?_, rfl, rfl, ?_, rfl⟩
  · simp [classifyError, h1, h2, h3, h4, h5, h6]
  · simp [classifyError, htc.1, htc.2]

/-- C8 witness: status 502 with a retry-after of 60 and transport code
ECONNRESET falls to the default branch and carries the (absent) body code. -/
theorem error_taxonomy_witness :
    classifyError ⟨some ⟨502, some 60, none⟩, true, some "ECONNRESET"⟩ =
      ⟨some 502, none, none⟩ :=
  (error_taxonomy (some 60) none 502 (some "ECONNRESET")
    (by decide) (by decide)).2.2.2.2.2.2.1

end Client

namespace Client

/-- The ECMAScript whitespace set used by `String.prototype.trim`:
WhiteSpace (TAB, VT, FF, SP, NBSP, ZWNBSP and the Unicode `Space_Separator`
category U+1680, U+2000..U+200A, U+202F, U+205F, U+3000) together with the
LineTerminator set (LF, CR, LS U+2028, PS U+2029). -/
def jsIsWhitespace (c : Char) : Bool :=
  c.val = 0x09 || c.val = 0x0A || c.val = 0x0B || c.val = 0x0C || c.val = 0x0D ||
  c.val = 0x20 || c.val = 0xA0 || c.val = 0x1680 ||
  (0x2000 ≤ c.val && c.val ≤ 0x200A) ||
  c.val = 0x2028 || c.val = 0x2029 || c.val = 0x202F || c.val = 0x205F ||
  c.val = 0x3000 || c.val = 0xFEFF

/-- JavaScript `String.prototype.trim`: strip whitespace from both ends. -/
def jsTrim (cs : List Char) : List Char :=
  ((cs.dropWhile jsIsWhitespace).reverse.dropWhile jsIsWhitespace).reverse

/-- The constructor's key validation: `!apiKey || apiKey.trim() === ""`
throws `MISSING_API_KEY`; then `apiKey.length < 20` throws
`INVALID_API_KEY_FORMAT`; otherwise construction proceeds (no HTTP request
is issued by the constructor). -/
def validateApiKey (key : List Char) : Option String :=
  if key = [] ∨ jsTrim key = [] then some "MISSING_API_KEY"
  else if key.length < 20 then some "INVALID_API_KEY_FORMAT"
  else none

theorem jsTrim_eq_nil_iff (cs : List Char) :
    jsTrim cs = [] ↔ ∀ c ∈ cs, jsIsWhitespace c := by
  unfold jsTrim
  rw [List.reverse_eq_nil_iff, List.dropWhile_eq_nil_iff]
  constructor
  · intro h c hc
    rcases List.mem_append.mp ((List.takeWhile_append_dropWhile (p := jsIsWhitespace)
        (l := cs)) ▸ hc) with htk | hdr
    · exact List.mem_takeWhile_imp htk
    · exact h c (List.mem_reverse.mpr hdr)
  · intro h c hc
    exact h c ((List.dropWhile_sublist _).mem (List.mem_reverse.mp hc))

/-- C10 counterexample: a key of 20 spaces has length ≥ 20 yet fails
validation — it throws `MISSING_API_KEY` (whitespace-only), refuting "any key
of length ≥ 20 passes this validation". -/
theorem whitespace_key_not_accepted_cex :
    validateApiKey (List.replicate 20 ' ') = some "MISSING_API_KEY" ∧
    20 ≤ (List.replicate 20 ' ').length ∧
    validateApiKey (List.replicate 20 ' ') ≠ none := by
  decide

/-- C10 (amended): an empty or whitespace-only key (of any length) throws
`MISSING_API_KEY`; a key that is neither empty nor whitespace-only and
shorter than 20 characters throws `INVALID_API_KEY_FORMAT`; any other key —
length ≥ 20 and not whitespace-only — passes validation.  The failure is
raised in the constructor, before any network request is issued. -/
theorem apiKey_validation (key : List Char) :
    ((key = [] ∨ ∀ c ∈ key, jsIsWhitespace c) →
      validateApiKey key = some "MISSING_API_KEY") ∧
    (¬ (key = [] ∨ ∀ c ∈ key, jsIsWhitespace c) → key.length < 20 →
      validateApiKey key = some "INVALID_API_KEY_FORMAT") ∧
    (¬ (key = [] ∨ ∀ c ∈ key, jsIsWhitespace c) → 20 ≤ key.length →
      validateApiKey key = none) := by
  refine ⟨?_, ?_, ?_⟩
  · intro h
    have hc : key = [] ∨ jsTrim key = [] :=
      h.imp id fun hw => (jsTrim_eq_nil_iff key).mpr hw
    rw [validateApiKey, if_pos hc]
  · intro h hlen
    have hc : ¬ (key = [] ∨ jsTrim key = []) := fun hc =>
      h (hc.imp id fun ht => (jsTrim_eq_nil_iff key).mp ht)
    rw [validateApiKey, if_neg hc, if_pos hlen]
  · intro h hlen
    have hc : ¬ (key = [] ∨ jsTrim key = []) := fun hc =>
      h (hc.imp id fun ht => (jsTrim_eq_nil_iff key).mp ht)
    rw [validateApiKey, if_neg hc, if_neg (by omega)]

end Client
